import Mathlib

/-!
# Verification of the CollyCrawler traversal-and-extraction pipeline

A shallow embedding, in Lean 4, of the core of the `collycrawler` Go
repository: the deduplicating JSONL store (`internal/storage`), the URL
filter and scraper (`internal/scraper`), the collector's URL scope gate
(`internal/collector`) and the CLI article handler (`cmd/crawler`).

Conventions of the embedding:
* The output file is `Option (List Article)`: `none` models an absent file,
  `some recs` models a file holding one JSON record per line.  JSON
  marshalling (`encoding/json`, an external library) is abstracted: a record
  written by `save` is recovered unchanged by `load`.
* The backup directory is the list of backup file names present in it.
* `map[string]bool` sets are lists of keys with membership via `contains`
  and insertion via `insertKey`.
* Go regular-expression matching (`regexp.MatchString`) is embedded by a
  small matcher over the exact pattern ASTs appearing in the source.
* Wall-clock timestamps (`time.Now`) are passed in as explicit parameters.
* External DOM operations (goquery / colly element access) are fields of a
  `Dom` record: selector-to-text, selector-to-html, sanitize, text-of-html.
-/

namespace Colly

/-- Model of `internal/models`: the scraped-article record (`Article`).  The two
`time.Time` fields (`ScrapedAt`, `PublishedDate`) are omitted: wall-clock
values, used by no verified property. -/
structure Article where
  url : String
  title : String
  content : String
  plainText : String
  author : String
  wordCount : Nat
  contentHash : String
  deriving Repr, DecidableEq

/-- The slice of `StorageConfig` that the verified behaviour depends on. -/
structure StorageConfig where
  backupEnabled : Bool
  maxBackupFiles : Nat
  deriving Repr, DecidableEq

/-- State of `JSONLStorage`: its config, the keys of the in-memory
`existingHashes` map, the output file (`none` = absent), and the names of
the files in the backup directory. -/
structure JSONLStorage where
  config : StorageConfig
  existingHashes : List String
  fileLines : Option (List Article)
  backups : List String
  deriving Repr, DecidableEq

/-- Insertion into a `map[string]bool` used as a set: a no-op when the key
is present. -/
def insertKey (ks : List String) (k : String) : List String :=
  if ks.contains k then ks else ks ++ [k]

/-- The records currently in the output file (empty when the file is
absent). -/
def JSONLStorage.records (st : JSONLStorage) : List Article :=
  st.fileLines.getD []

/-- Model of `JSONLStorage.Load`: a missing file yields an empty slice and no error;
otherwise the records are read in file order.  (Blank lines and unparsable
lines cannot arise in this embedding, where every line was written by
`save`/`saveBatch` from a marshalled record.) -/
def JSONLStorage.load (st : JSONLStorage) : Except String (List Article) :=
  match st.fileLines with
  | none => .ok []
  | some recs => .ok recs

/-- Model of `JSONLStorage.Exists`: O(1) lookup in the in-memory index.  (The Go
method also returns an always-`nil` error, dropped here.) -/
def JSONLStorage.existsHash (st : JSONLStorage) (contentHash : String) : Bool :=
  st.existingHashes.contains contentHash

/-- Model of `JSONLStorage.loadExistingHashes`: rebuild the index by scanning the
existing file. -/
def JSONLStorage.loadExistingHashes (st : JSONLStorage) : JSONLStorage :=
  match st.load with
  | .error _ => st
  | .ok articles =>
    { st with existingHashes :=
        articles.foldl (fun hs a => insertKey hs a.contentHash) st.existingHashes }

/-- Model of `NewJSONLStorage`: construct over whatever output file currently exists
(`existing`), then rebuild the hash index from it. -/
def newJSONLStorage (cfg : StorageConfig) (existing : Option (List Article)) :
    JSONLStorage :=
  JSONLStorage.loadExistingHashes
    { config := cfg, existingHashes := [], fileLines := existing, backups := [] }

/-- Model of `JSONLStorage.cleanupOldBackups`: glob the backup names, sort them
(`sort.Strings`), and when more than `maxBackupFiles` remain delete the
oldest (smallest) ones so that exactly `maxBackupFiles` are left. -/
def JSONLStorage.cleanupOldBackups (st : JSONLStorage) : JSONLStorage :=
  let files := st.backups.insertionSort (· ≤ ·)
  if files.length ≤ st.config.maxBackupFiles then st
  else { st with backups := files.drop (files.length - st.config.maxBackupFiles) }

/-- The backup file name of a rotation at `timestamp`:
`articles_backup_<timestamp>.jsonl`. -/
def backupName (timestamp : String) : String :=
  "articles_backup_" ++ timestamp ++ ".jsonl"

/-- Model of `JSONLStorage.createBackup`: a no-op when the output file does not
exist; otherwise copy it to `articles_backup_<timestamp>.jsonl` in the
backup directory and prune old backups. -/
def JSONLStorage.createBackup (st : JSONLStorage) (timestamp : String) :
    JSONLStorage :=
  match st.fileLines with
  | none => st
  | some _ =>
    let backupFileName := backupName timestamp
    JSONLStorage.cleanupOldBackups { st with backups := st.backups ++ [backupFileName] }

/-- Model of `JSONLStorage.Save`: skip (returning a `nil` error) when the fingerprint
is already indexed; otherwise best-effort backup, append one record
(`O_CREATE|O_APPEND`), record the hash, return a `nil` error.  The returned
`Option String` is the Go `error` result (`none` = `nil`); I/O and encoding
failures are environmental and do not arise in this embedding. -/
def JSONLStorage.save (st : JSONLStorage) (now : String) (article : Article) :
    JSONLStorage × Option String :=
  if st.existingHashes.contains article.contentHash then (st, none)
  else
    let st1 := if st.config.backupEnabled then st.createBackup now else st
    let recs := st1.fileLines.getD []
    ({ st1 with
        fileLines := some (recs ++ [article]),
        existingHashes := insertKey st1.existingHashes article.contentHash },
     none)

/-- The per-article body of `SaveBatch`'s loop: skip an already-indexed
fingerprint, otherwise append the record and record the hash. -/
def JSONLStorage.saveBatchStep (st : JSONLStorage) (article : Article) :
    JSONLStorage :=
  if st.existingHashes.contains article.contentHash then st
  else
    { st with
        fileLines := some (st.fileLines.getD [] ++ [article]),
        existingHashes := insertKey st.existingHashes article.contentHash }

/-- Model of `JSONLStorage.SaveBatch`: nothing on an empty batch; otherwise
best-effort backup, open the file once (`O_CREATE` makes it exist even if
every item is then skipped) and run the per-article loop.  Always returns a
`nil` error. -/
def JSONLStorage.saveBatch (st : JSONLStorage) (now : String)
    (articles : List Article) : JSONLStorage × Option String :=
  if articles.isEmpty then (st, none)
  else
    let st1 := if st.config.backupEnabled then st.createBackup now else st
    let st2 := { st1 with fileLines := some (st1.fileLines.getD []) }
    (articles.foldl JSONLStorage.saveBatchStep st2, none)

/-- One storage call: a `Save` or a `SaveBatch`, with its wall-clock
timestamp. -/
inductive StoreOp where
  | one : String → Article → StoreOp
  | batch : String → List Article → StoreOp
  deriving Repr

/-- Run a sequence of `Save`/`SaveBatch` calls. -/
def runOps (st : JSONLStorage) : List StoreOp → JSONLStorage
  | [] => st
  | .one now a :: rest => runOps (st.save now a).1 rest
  | .batch now as :: rest => runOps (st.saveBatch now as).1 rest

/-- All articles passed to a sequence of storage calls, in call order. -/
def opsArticles : List StoreOp → List Article
  | [] => []
  | .one _ a :: rest => a :: opsArticles rest
  | .batch _ as :: rest => as ++ opsArticles rest

/-- Modelled from the spec (§4.4, round-trip property): the articles a
sequence should persist — the first article of each distinct fingerprint,
in arrival order, fingerprints in `seen` excluded. -/
def firstPerHash (seen : List String) : List Article → List Article
  | [] => []
  | a :: rest =>
    if seen.contains a.contentHash then firstPerHash (insertKey seen a.contentHash) rest
    else a :: firstPerHash (insertKey seen a.contentHash) rest

/-! ## String helpers (Go `strings` package) -/

/-- The character class of Go's regexp `\s` and of ASCII whitespace:
space, tab, newline, carriage return, form feed, vertical tab. -/
def isSpaceChar (c : Char) : Bool :=
  c = ' ' || c = '\t' || c = '\n' || c = '\r' || c = '\x0c' || c = '\x0b'

/-- Go `strings.TrimSpace` (ASCII whitespace suffices for the strings the
program handles). -/
def strTrim (s : String) : String :=
  String.mk (((s.toList.dropWhile isSpaceChar).reverse.dropWhile isSpaceChar).reverse)

/-- Split a character list on a separator character; `[[]]` on the empty
list, so that `strSplit "" sep = [""]` as with Go `strings.Split`. -/
def splitOnChar (sep : Char) : List Char → List (List Char)
  | [] => [[]]
  | c :: cs =>
    let r := splitOnChar sep cs
    if c = sep then [] :: r
    else
      match r with
      | [] => [[c]]
      | g :: gs => (c :: g) :: gs

/-- Go `strings.Split` for a one-character separator (the only separators
the program uses: `,`, `|`, `*`). -/
def strSplit (s : String) (sep : Char) : List String :=
  (splitOnChar sep s.toList).map String.mk

/-- Go `strings.HasPrefix`. -/
def strStartsWith (s p : String) : Bool :=
  p.toList.isPrefixOf s.toList

/-- Go `strings.HasSuffix`. -/
def strEndsWith (s p : String) : Bool :=
  p.toList.isSuffixOf s.toList

/-- Go `strings.Contains`. -/
def strContains (s sub : String) : Bool :=
  (List.range (s.toList.length + 1)).any (fun i => sub.toList.isPrefixOf (s.toList.drop i))

/-- Collapse every run of whitespace to one space (`regexp \s+` replaced by
a single space): a whitespace character followed by more whitespace is
dropped, the last of a run becomes `' '`. -/
def collapseWS : List Char → List Char
  | [] => []
  | [c] => if isSpaceChar c then [' '] else [c]
  | c :: d :: cs =>
    if isSpaceChar c then
      if isSpaceChar d then collapseWS (d :: cs)
      else ' ' :: collapseWS (d :: cs)
    else c :: collapseWS (d :: cs)

/-- Model of `Scraper.cleanText`: collapse whitespace runs to a single space, then
trim. -/
def cleanText (s : String) : String :=
  strTrim (String.mk (collapseWS s.toList))

/-- Go `strings.Fields`: the whitespace-delimited tokens of a string. -/
def goFields (s : String) : List String :=
  (s.toList.splitOnP isSpaceChar).filter (fun w => !w.isEmpty) |>.map String.mk

/-! ## URL filter (`internal/scraper`, `URLFilter`)

Go regular expressions are embedded as token lists: a pattern is a set of
alternative branches (alternation distributed), each branch a sequence of
literal characters and one-or-more character-class repetitions, with an
optional `$` end anchor.  `regexp.MatchString` semantics: the pattern may
match starting at any position of the subject. -/

/-- One regex token: a literal character, or `+` applied to a character
class (`[^/]+`, `\d+`). -/
inductive RTok where
  | lit : Char → RTok
  | plus : (Char → Bool) → RTok

/-- A Go regex, compiled: alternative branches (token sequences) plus
whether the pattern is `$`-anchored at the end. -/
structure Pat where
  branches : List (List RTok)
  anchorEnd : Bool

/-- The literal tokens of a string. -/
def lits (s : String) : List RTok :=
  s.toList.map RTok.lit

/-- Match a token sequence against (a suffix of) the subject;
`anchorEnd = true` requires the match to end exactly at the end of the
subject, otherwise any remainder is allowed. -/
def matchToks : List RTok → List Char → Bool → Bool
  | [], cs, anchorEnd => !anchorEnd || cs.isEmpty
  | .lit _ :: _, [], _ => false
  | .lit c :: ts, d :: cs, anchorEnd => c = d && matchToks ts cs anchorEnd
  | .plus _ :: _, [], _ => false
  | .plus p :: ts, d :: cs, anchorEnd =>
      p d && (matchToks ts cs anchorEnd || matchToks (.plus p :: ts) cs anchorEnd)
  termination_by structural _ cs _ => cs

/-- Model of `regexp.MatchString pat url`: some branch matches starting at some
position. -/
def matchPat (pat : Pat) (url : String) : Bool :=
  pat.branches.any (fun b =>
    (List.range (url.toList.length + 1)).any (fun i =>
      matchToks b (url.toList.drop i) pat.anchorEnd))

/-- A non-`/` character (`[^/]`). -/
def notSlash (c : Char) : Bool := c ≠ '/'

/-- Patterns of `NewURLFilter` for articles, compiled:
`/posts/[^/]+/$`, `/posts/\d+/[^/]+/$`, `/posts/[^/]+/[^/]+/$`,
`/posts/[^/]+-[^/]+/$`, `/posts/[^/]+_[^/]+/$`. -/
def articlePatterns : List Pat :=
  [ ⟨[lits "/posts/" ++ [.plus notSlash] ++ lits "/"], true⟩,
    ⟨[lits "/posts/" ++ [.plus Char.isDigit] ++ lits "/" ++ [.plus notSlash] ++ lits "/"], true⟩,
    ⟨[lits "/posts/" ++ [.plus notSlash] ++ lits "/" ++ [.plus notSlash] ++ lits "/"], true⟩,
    ⟨[lits "/posts/" ++ [.plus notSlash] ++ lits "-" ++ [.plus notSlash] ++ lits "/"], true⟩,
    ⟨[lits "/posts/" ++ [.plus notSlash] ++ lits "_" ++ [.plus notSlash] ++ lits "/"], true⟩ ]

/-- Patterns of `NewURLFilter` for exclusion, compiled:
`/posts/$`, `/posts/index\.xml$`, `/tags/`, `/categories/`,
`\.(jpg|jpeg|png|gif|pdf|css|js)$` (alternation distributed into
branches). -/
def excludePatterns : List Pat :=
  [ ⟨[lits "/posts/"], true⟩,
    ⟨[lits "/posts/index.xml"], true⟩,
    ⟨[lits "/tags/"], false⟩,
    ⟨[lits "/categories/"], false⟩,
    ⟨[lits ".jpg", lits ".jpeg", lits ".png", lits ".gif",
      lits ".pdf", lits ".css", lits ".js"], true⟩ ]

/-- Model of `URLFilter.IsArticlePage`: any exclusion match forces `false`;
otherwise any article-pattern match gives `true`. -/
def isArticlePage (url : String) : Bool :=
  if excludePatterns.any (fun p => matchPat p url) then false
  else articlePatterns.any (fun p => matchPat p url)

/-- Patterns of `URLFilter.IsListPage`, compiled:
`/posts/$`, `/posts/page/\d+/$`, `/$`. -/
def listPatterns : List Pat :=
  [ ⟨[lits "/posts/"], true⟩,
    ⟨[lits "/posts/page/" ++ [.plus Char.isDigit] ++ lits "/"], true⟩,
    ⟨[lits "/"], true⟩ ]

/-- Model of `URLFilter.IsListPage`. -/
def isListPage (url : String) : Bool :=
  listPatterns.any (fun p => matchPat p url)

/-- Model of `URLFilter.ShouldExtractContent`: only individual article pages. -/
def shouldExtractContent (url : String) : Bool :=
  isArticlePage url

/-- Model of `URLFilter.GetURLType`. -/
def getURLType (url : String) : String :=
  if isArticlePage url then "article"
  else if isListPage url then "list"
  else "other"

/-! ## Scraper (`internal/scraper`, `Scraper`) -/

/-- The selector configuration the scraper consumes
(`config.Selectors.Article`): each field a comma-separated selector
list, as in `configs/config.yaml`. -/
structure ScraperCfg where
  titleSelectors : String
  contentSelectors : String
  authorSelectors : String
  deriving Repr, DecidableEq

/-- A fetched, parsed page (a colly `HTMLElement`): its request URL and the
external DOM operations the scraper invokes on it.
`childText sel` = `e.ChildText(sel)` (text of the matches, trimmed);
`childHtml sel` = inner HTML of the first element matching `sel` (`""`
when nothing matches, as in `extractContent`'s `ForEach`);
`sanitize` = `cleanHTML` (goquery parse, drop script/style/nav/…,
re-serialize); `textOf` = goquery `.Text()` of an HTML string. -/
structure Dom where
  url : String
  childText : String → String
  childHtml : String → String
  sanitize : String → String
  textOf : String → String

/-- Split a comma-separated selector configuration and trim each entry, as
every extractor loop does. -/
def splitSelectors (cfg : String) : List String :=
  (strSplit cfg ',').map strTrim

/-- Model of `Scraper.extractTitle`: first configured selector with non-empty text
wins (whitespace-normalized); else fall back to the `title` tag: take the
text before the first `|` (trimmed) if non-empty, the whole title-tag text
otherwise; `""` when the title tag is empty too. -/
def extractTitle (titleCfg : String) (childText : String → String) : String :=
  match (splitSelectors titleCfg).find? (fun sel => childText sel != "") with
  | some sel => cleanText (childText sel)
  | none =>
    let pageTitle := cleanText (childText "title")
    if pageTitle != "" then
      let articleTitle := strTrim ((strSplit pageTitle '|').headD "")
      if articleTitle != "" then articleTitle else pageTitle
    else ""

/-- Model of `Scraper.extractContent`: first configured selector whose first match
has non-empty inner HTML wins; the result is that HTML, sanitized. -/
def extractContent (contentCfg : String) (e : Dom) : String :=
  match (splitSelectors contentCfg).find? (fun sel => e.childHtml sel != "") with
  | some sel => e.sanitize (e.childHtml sel)
  | none => ""

/-- Model of `Scraper.extractAuthor`: empty when unconfigured; otherwise first
selector with non-empty text, cleaned. -/
def extractAuthor (authorCfg : String) (childText : String → String) : String :=
  if authorCfg = "" then ""
  else
    match (splitSelectors authorCfg).find? (fun sel => childText sel != "") with
    | some sel => cleanText (childText sel)
    | none => ""

/-- Mutable state of a `Scraper`: its visited-URL set (keys of
`visitedURLs`) and its accumulated `articles` slice. -/
structure Scraper where
  visitedURLs : List String
  articles : List Article
  deriving Repr, DecidableEq

/-- Model of `Scraper.ExtractArticle` for one page: skip an already-visited URL
untouched; record the URL as visited; skip non-article URLs; extract
title and content (skipping the page if either is empty); assemble the
`Article` (fingerprint = `hashFn (title ++ plainText)`, modelling the
`crypto/md5` digest) and append it to the articles slice. -/
def Scraper.extractArticle (cfg : ScraperCfg) (hashFn : String → String)
    (st : Scraper) (e : Dom) : Option Article × Scraper :=
  let urlStr := e.url
  if st.visitedURLs.contains urlStr then (none, st)
  else
    let st1 : Scraper := { st with visitedURLs := st.visitedURLs ++ [urlStr] }
    if !shouldExtractContent urlStr then (none, st1)
    else
      let title := extractTitle cfg.titleSelectors e.childText
      if title = "" then (none, st1)
      else
        let content := extractContent cfg.contentSelectors e
        if content = "" then (none, st1)
        else
          let author := extractAuthor cfg.authorSelectors e.childText
          let plainText := cleanText (e.textOf content)
          let wordCount := (goFields plainText).length
          let contentHash := hashFn (title ++ plainText)
          let article : Article :=
            { url := urlStr, title := strTrim title, content := content,
              plainText := plainText, author := author,
              wordCount := wordCount, contentHash := contentHash }
          (some article, { st1 with articles := st1.articles ++ [article] })

/-- A sequence of `ExtractArticle` calls on one scraper; the result pairs
each page's URL with the call's return value. -/
def runScraper (cfg : ScraperCfg) (hashFn : String → String) (st : Scraper) :
    List Dom → Scraper × List (String × Option Article)
  | [] => (st, [])
  | e :: rest =>
    let r := st.extractArticle cfg hashFn e
    let after := runScraper cfg hashFn r.2 rest
    (after.1, (e.url, r.1) :: after.2)

/-- The first acceptance rule of `Scraper.ExtractLinks` (an article link):
contains `/posts/`, ends with `/`, does not end with `/posts/`, does not
contain `/page/`. -/
def articleLinkCond (u : String) : Bool :=
  strContains u "/posts/" && strEndsWith u "/" &&
    !strEndsWith u "/posts/" && !strContains u "/page/"

/-- The second acceptance rule of `Scraper.ExtractLinks` (a pagination
link): contains `/page/` or `/posts/page/`. -/
def paginationLinkCond (u : String) : Bool :=
  strContains u "/page/" || strContains u "/posts/page/"

/-- The per-href body of `ExtractLinks`'s loop.  `""` models an href that
failed to resolve (skipped); the accumulated list doubles as the `linkMap`
dedup set (they always hold the same URLs). -/
def linkStep (acc : List String) (u : String) : List String :=
  if u = "" then acc
  else
    let acc1 := if articleLinkCond u && !acc.contains u then acc ++ [u] else acc
    if paginationLinkCond u && !acc1.contains u then acc1 ++ [u] else acc1

/-- Model of `Scraper.ExtractLinks`: fold the two acceptance rules with
deduplication over the page's resolved absolute link URLs, in document
order. -/
def extractLinks (resolvedURLs : List String) : List String :=
  resolvedURLs.foldl linkStep []

/-! ## Collector scope gate (`internal/collector`) -/

/-- The slice of the target configuration the scope gate consumes. -/
structure TargetCfg where
  allowedDomains : List String
  excludePatterns : List String
  deriving Repr, DecidableEq

/-- Model of `collector.matchesPattern`: a pattern with exactly one `*` splits into
a required prefix and suffix; any other pattern (no `*`, or several) is
tested by plain substring containment. -/
def matchesPattern (url pattern : String) : Bool :=
  if strContains pattern "*" then
    match strSplit pattern '*' with
    | [p0, p1] => strStartsWith url p0 && strEndsWith url p1
    | _ => strContains url pattern
  else strContains url pattern

/-- Model of `Collector.IsAllowedURL`: reject on any exclusion-pattern match;
otherwise accept when any allowed domain occurs *as a substring* of the
URL (`strings.Contains`, not a parsed-host comparison). -/
def isAllowedURL (cfg : TargetCfg) (url : String) : Bool :=
  if cfg.excludePatterns.any (fun p => matchesPattern url p) then false
  else cfg.allowedDomains.any (fun d => strContains url d)

/-- The host of a URL as `net/url` parses the well-formed URLs considered
here: the text between `"://"` and the next `/`.  Used only to state the
scope-gate claim, which speaks of the URL's host. -/
def hostOf (url : String) : String :=
  let cs := url.toList
  match (List.range cs.length).find? (fun i => [':', '/', '/'].isPrefixOf (cs.drop i)) with
  | some i => String.mk ((cs.drop (i + 3)).takeWhile (fun c => c != '/'))
  | none => ""

/-! ## CLI article handler (`cmd/crawler`, `CrawlerApp.handleArticle`) -/

/-- The crawl statistics `handleArticle` maintains, plus the dry-run
flag. -/
structure AppStats where
  processedURLs : Nat
  savedArticles : Nat
  skippedArticles : Nat
  errorCount : Nat
  dryRun : Bool
  deriving Repr, DecidableEq

/-- Model of `CrawlerApp.handleArticle` for one page, given the scraper's
extraction result: count the URL; a `nil` extraction is a skip; an
already-stored fingerprint (via `Exists`) is a skip; otherwise save
(unless dry-run) and count the article as saved, or count an error when
`Save` fails. -/
def handleArticle (stats : AppStats) (store : JSONLStorage) (now : String)
    (extracted : Option Article) : AppStats × JSONLStorage :=
  let stats1 := { stats with processedURLs := stats.processedURLs + 1 }
  match extracted with
  | none => ({ stats1 with skippedArticles := stats1.skippedArticles + 1 }, store)
  | some article =>
    if store.existsHash article.contentHash then
      ({ stats1 with skippedArticles := stats1.skippedArticles + 1 }, store)
    else if !stats1.dryRun then
      match store.save now article with
      | (store1, none) =>
        ({ stats1 with savedArticles := stats1.savedArticles + 1 }, store1)
      | (store1, some _) =>
        ({ stats1 with errorCount := stats1.errorCount + 1 }, store1)
    else
      ({ stats1 with savedArticles := stats1.savedArticles + 1 }, store)

/-! ## Storage lemmas -/

/-- A sequence of `Save` calls only, as in the idempotence property. -/
def runSaves (st : JSONLStorage) (calls : List (String × Article)) : JSONLStorage :=
  runOps st (calls.map (fun c => StoreOp.one c.1 c.2))

/-- The index contents after recording a list of fingerprints. -/
def seenAfter (seen : List String) (hs : List String) : List String :=
  hs.foldl insertKey seen

theorem insertKey_of_mem {ks : List String} {k : String}
    (h : k ∈ ks) : insertKey ks k = ks := by
  simp [insertKey, h]

theorem insertKey_of_not_mem {ks : List String} {k : String}
    (h : k ∉ ks) : insertKey ks k = ks ++ [k] := by
  simp [insertKey, h]

theorem cleanupOldBackups_config (st : JSONLStorage) :
    (st.cleanupOldBackups).config = st.config := by
  simp only [JSONLStorage.cleanupOldBackups]
  split <;> rfl

theorem cleanupOldBackups_existingHashes (st : JSONLStorage) :
    (st.cleanupOldBackups).existingHashes = st.existingHashes := by
  simp only [JSONLStorage.cleanupOldBackups]
  split <;> rfl

theorem cleanupOldBackups_fileLines (st : JSONLStorage) :
    (st.cleanupOldBackups).fileLines = st.fileLines := by
  simp only [JSONLStorage.cleanupOldBackups]
  split <;> rfl

theorem createBackup_config (st : JSONLStorage) (t : String) :
    (st.createBackup t).config = st.config := by
  simp only [JSONLStorage.createBackup]
  cases st.fileLines with
  | none => rfl
  | some recs => exact cleanupOldBackups_config _

theorem createBackup_existingHashes (st : JSONLStorage) (t : String) :
    (st.createBackup t).existingHashes = st.existingHashes := by
  simp only [JSONLStorage.createBackup]
  cases st.fileLines with
  | none => rfl
  | some recs => exact cleanupOldBackups_existingHashes _

theorem createBackup_fileLines (st : JSONLStorage) (t : String) :
    (st.createBackup t).fileLines = st.fileLines := by
  simp only [JSONLStorage.createBackup]
  cases h : st.fileLines with
  | none => exact h
  | some recs => exact cleanupOldBackups_fileLines _

theorem load_eq_records (st : JSONLStorage) : st.load = .ok st.records := by
  cases h : st.fileLines <;> simp [JSONLStorage.load, JSONLStorage.records, h]

theorem save_of_exists {st : JSONLStorage} {a : Article} (now : String)
    (h : a.contentHash ∈ st.existingHashes) :
    st.save now a = (st, none) := by
  simp [JSONLStorage.save, h]

theorem save_of_not_exists {st : JSONLStorage} {a : Article} (now : String)
    (h : a.contentHash ∉ st.existingHashes) :
    (st.save now a).1.records = st.records ++ [a] ∧
    (st.save now a).1.existingHashes = st.existingHashes ++ [a.contentHash] ∧
    (st.save now a).2 = none := by
  by_cases he : st.config.backupEnabled <;>
    simp [JSONLStorage.save, JSONLStorage.records, h, he,
      createBackup_fileLines, createBackup_existingHashes, insertKey_of_not_mem]

theorem saveBatchStep_of_exists {st : JSONLStorage} {a : Article}
    (h : a.contentHash ∈ st.existingHashes) :
    st.saveBatchStep a = st := by
  simp [JSONLStorage.saveBatchStep, h]

theorem saveBatchStep_of_not_exists {st : JSONLStorage} {a : Article}
    (h : a.contentHash ∉ st.existingHashes) :
    (st.saveBatchStep a).records = st.records ++ [a] ∧
    (st.saveBatchStep a).existingHashes = st.existingHashes ++ [a.contentHash] := by
  simp [JSONLStorage.saveBatchStep, h, JSONLStorage.records,
    insertKey_of_not_mem]

theorem seenAfter_append (seen hs1 hs2 : List String) :
    seenAfter seen (hs1 ++ hs2) = seenAfter (seenAfter seen hs1) hs2 :=
  List.foldl_append _ _ _ _

theorem firstPerHash_append (l1 l2 : List Article) : ∀ seen : List String,
    firstPerHash seen (l1 ++ l2)
      = firstPerHash seen l1
        ++ firstPerHash (seenAfter seen (l1.map (·.contentHash))) l2 := by
  induction l1 with
  | nil => intro seen; simp [firstPerHash, seenAfter]
  | cons a rest ih =>
    intro seen
    by_cases hc : a.contentHash ∈ seen <;>
      simp [firstPerHash, hc, ih, seenAfter, List.foldl_cons]

theorem batch_foldl_char (as : List Article) : ∀ st : JSONLStorage,
    ((as.foldl JSONLStorage.saveBatchStep st).records
        = st.records ++ firstPerHash st.existingHashes as) ∧
    ((as.foldl JSONLStorage.saveBatchStep st).existingHashes
        = seenAfter st.existingHashes (as.map (·.contentHash))) := by
  induction as with
  | nil => intro st; simp [firstPerHash, seenAfter]
  | cons a rest ih =>
    intro st
    by_cases hc : a.contentHash ∈ st.existingHashes
    · have hstep := saveBatchStep_of_exists hc
      have hi := ih st
      simp [List.foldl_cons, hstep, firstPerHash, hc, insertKey_of_mem hc,
        hi.1, hi.2, seenAfter]
    · have hstep := saveBatchStep_of_not_exists hc
      have hi := ih (st.saveBatchStep a)
      rw [hstep.1, hstep.2] at hi
      constructor
      · rw [List.foldl_cons, hi.1]
        simp [firstPerHash, hc, insertKey_of_not_mem hc]
      · rw [List.foldl_cons, hi.2]
        simp [firstPerHash, hc, insertKey_of_not_mem hc, seenAfter,
          List.foldl_cons]

theorem saveBatch_char {st : JSONLStorage} (now : String) (as : List Article)
    (hne : as.isEmpty = false) :
    ((st.saveBatch now as).1.records = st.records ++ firstPerHash st.existingHashes as) ∧
    ((st.saveBatch now as).1.existingHashes
        = seenAfter st.existingHashes (as.map (·.contentHash))) := by
  unfold JSONLStorage.saveBatch
  rw [hne]
  simp only [Bool.false_eq_true, if_false]
  by_cases he : st.config.backupEnabled
  · simp only [he, if_true]
    constructor
    · rw [(batch_foldl_char as _).1]
      simp [JSONLStorage.records, createBackup_fileLines,
        createBackup_existingHashes]
    · rw [(batch_foldl_char as _).2]
      simp [createBackup_existingHashes]
  · simp only [he, Bool.false_eq_true, if_false]
    constructor
    · rw [(batch_foldl_char as _).1]
      simp [JSONLStorage.records]
    · rw [(batch_foldl_char as _).2]

theorem runOps_char (ops : List StoreOp) : ∀ st : JSONLStorage,
    ((runOps st ops).records
        = st.records ++ firstPerHash st.existingHashes (opsArticles ops)) ∧
    ((runOps st ops).existingHashes
        = seenAfter st.existingHashes ((opsArticles ops).map (·.contentHash))) := by
  induction ops with
  | nil => intro st; simp [runOps, opsArticles, firstPerHash, seenAfter]
  | cons op rest ih =>
    intro st
    cases op with
    | one now a =>
      by_cases hc : a.contentHash ∈ st.existingHashes
      · have hsave := save_of_exists now hc
        have hi := ih st
        simp only [runOps, hsave]
        simp [opsArticles, firstPerHash, hc, insertKey_of_mem hc,
          hi.1, hi.2, seenAfter, List.foldl_cons]
      · have hsave := save_of_not_exists now hc
        have hi := ih (st.save now a).1
        rw [hsave.1, hsave.2.1] at hi
        constructor
        · simp only [runOps, hi.1]
          simp [opsArticles, firstPerHash, hc, insertKey_of_not_mem hc]
        · simp only [runOps, hi.2]
          simp [opsArticles, firstPerHash, hc, insertKey_of_not_mem hc,
            seenAfter, List.foldl_cons]
    | batch now as =>
      by_cases hemp : as.isEmpty
      · have hnil : as = [] := by simpa [List.isEmpty_iff] using hemp
        subst hnil
        have hi := ih st
        simp only [runOps, JSONLStorage.saveBatch, List.isEmpty_nil, if_true]
        simpa [opsArticles] using hi
      · have hne : as.isEmpty = false := by simpa using hemp
        have hb := @saveBatch_char st now as hne
        have hi := ih (st.saveBatch now as).1
        rw [hb.1, hb.2] at hi
        simp only [runOps]
        refine ⟨?_, ?_⟩
        · rw [hi.1]
          simp [opsArticles, firstPerHash_append, List.append_assoc]
        · rw [hi.2]
          simp [opsArticles, seenAfter_append]

theorem newJSONLStorage_empty (cfg : StorageConfig) (init : Option (List Article))
    (h : init = none ∨ init = some []) :
    (newJSONLStorage cfg init).records = [] ∧
    (newJSONLStorage cfg init).existingHashes = [] := by
  rcases h with h | h <;> subst h <;> exact ⟨rfl, rfl⟩

theorem countP_firstPerHash (h : String) : ∀ (l : List Article) (seen : List String),
    (firstPerHash seen l).countP (fun r => r.contentHash == h)
      = if h ∈ seen then 0
        else if l.any (fun a => a.contentHash == h) then 1 else 0 := by
  intro l
  induction l with
  | nil => intro seen; simp [firstPerHash]
  | cons a rest ih =>
    intro seen
    by_cases hc : a.contentHash ∈ seen
    · rw [show firstPerHash seen (a :: rest)
            = firstPerHash (insertKey seen a.contentHash) rest from by
          simp [firstPerHash, hc]]
      rw [insertKey_of_mem hc, ih seen]
      by_cases hh : h ∈ seen
      · simp [hh]
      · have hne : (a.contentHash == h) = false := by
          have : a.contentHash ≠ h := fun he => hh (he ▸ hc)
          simpa using this
        simp [hh, List.any_cons, hne]
    · rw [show firstPerHash seen (a :: rest)
            = a :: firstPerHash (insertKey seen a.contentHash) rest from by
          simp [firstPerHash, hc]]
      rw [List.countP_cons, ih (insertKey seen a.contentHash)]
      rw [insertKey_of_not_mem hc]
      by_cases hh : a.contentHash = h
      · subst hh
        simp [hc, List.any_cons]
      · have hne : (a.contentHash == h) = false := by simpa using hh
        have hmem : (h ∈ seen ++ [a.contentHash]) ↔ h ∈ seen := by
          simp [Ne.symm hh]
        by_cases hsh : h ∈ seen <;>
          simp [hsh, hmem, List.any_cons, hne]

theorem opsArticles_map_one (calls : List (String × Article)) :
    opsArticles (calls.map (fun c => StoreOp.one c.1 c.2)) = calls.map Prod.snd := by
  induction calls with
  | nil => rfl
  | cons c rest ih => simp [opsArticles, ih]

/-! ## Concrete fixtures used by witnesses and counterexamples -/

/-- A concrete article with fingerprint `"h1"`. -/
def artA : Article :=
  ⟨"https://s/posts/a/", "A", "<p>x</p>", "x", "", 1, "h1"⟩

/-- A different article with the same fingerprint `"h1"` (same content at a
different URL). -/
def artB : Article :=
  ⟨"https://s/posts/b/", "B", "<p>x</p>", "x", "", 1, "h1"⟩

/-- An article with the fresh fingerprint `"h2"`. -/
def artC : Article :=
  ⟨"https://s/posts/c/", "C", "<p>y</p>", "y", "", 1, "h2"⟩

/-- A store constructed over an existing file already holding `artA`, so
fingerprint `"h1"` is indexed. -/
def storeWithA : JSONLStorage := newJSONLStorage ⟨false, 0⟩ (some [artA])

/-! ## Claim theorems: storage -/

/-- Claim C1: `Save` is idempotent on fingerprint.  (i) For an article whose
fingerprint is already in the in-memory index, `Save` returns with the
whole store — output file, index, backups — unchanged and a `nil` error.
(ii) Over any sequence of `Save` calls on a store built over an absent
file, if the sequence contains two articles of equal fingerprint, exactly
one record with that fingerprint is persisted in the output file. -/
theorem save_idempotent_on_fingerprint
    (st : JSONLStorage) (now : String) (dup : Article)
    (cfg : StorageConfig) (calls : List (String × Article)) (b c : Article)
    (hdup : st.existsHash dup.contentHash = true)
    (hb : b ∈ calls.map Prod.snd) (hc2 : c ∈ calls.map Prod.snd)
    (hbc : b.contentHash = c.contentHash) :
    st.save now dup = (st, none) ∧
    (runSaves (newJSONLStorage cfg none) calls).records.countP
        (fun r => r.contentHash == b.contentHash) = 1 := by
  have hmem : dup.contentHash ∈ st.existingHashes := by
    simpa [JSONLStorage.existsHash] using hdup
  refine ⟨save_of_exists now hmem, ?_⟩
  have hinit := newJSONLStorage_empty cfg none (Or.inl rfl)
  have hrun := runOps_char (calls.map (fun p => StoreOp.one p.1 p.2))
    (newJSONLStorage cfg none)
  rw [opsArticles_map_one] at hrun
  unfold runSaves
  rw [hrun.1, hinit.1, hinit.2, List.nil_append,
    countP_firstPerHash b.contentHash (calls.map Prod.snd) []]
  have hany : (calls.map Prod.snd).any (fun a => a.contentHash == b.contentHash) = true := by
    simp only [List.any_eq_true]
    exact ⟨b, hb, by simp⟩
  simp [hany]

/-- Witness for C1 at concrete inputs: `artB` duplicates the already-stored
fingerprint of `artA`; the sequence saves `artA` then `artB` (equal
fingerprints) and exactly one `"h1"` record is persisted. -/
theorem save_idempotent_on_fingerprint_witness :
    storeWithA.save "t" artB = (storeWithA, none) ∧
    (runSaves (newJSONLStorage ⟨false, 0⟩ none) [("t1", artA), ("t2", artB)]).records.countP
        (fun r => r.contentHash == artA.contentHash) = 1 :=
  save_idempotent_on_fingerprint storeWithA "t" artB ⟨false, 0⟩
    [("t1", artA), ("t2", artB)] artA artB
    (by decide) (by decide) (by decide) (by decide)

/-- Claim C2: round-trip.  Starting from an absent or empty output file, after
any sequence of `Save`/`SaveBatch` calls, `Load` returns exactly the
persisted articles: the first article of each distinct fingerprint, in
append order (`firstPerHash`, written from the spec's words). -/
theorem load_roundtrip (cfg : StorageConfig) (init : Option (List Article))
    (hinit : init = none ∨ init = some []) (ops : List StoreOp) :
    (runOps (newJSONLStorage cfg init) ops).load
      = .ok (firstPerHash [] (opsArticles ops)) := by
  have hinit2 := newJSONLStorage_empty cfg init hinit
  have hrun := runOps_char ops (newJSONLStorage cfg init)
  rw [load_eq_records, hrun.1, hinit2.1, hinit2.2, List.nil_append]

/-- Witness for C2: a `Save` then a `SaveBatch` with one duplicate; `Load`
returns exactly `[artA, artC]` (the duplicate `artB` excluded), in append
order. -/
theorem load_roundtrip_witness :
    ((runOps (newJSONLStorage ⟨false, 0⟩ none)
        [.one "t1" artA, .batch "t2" [artB, artC]]).load
      = .ok (firstPerHash [] (opsArticles [.one "t1" artA, .batch "t2" [artB, artC]]))) ∧
    firstPerHash [] (opsArticles [.one "t1" artA, .batch "t2" [artB, artC]])
      = [artA, artC] :=
  ⟨load_roundtrip ⟨false, 0⟩ none (Or.inl rfl) _, by decide⟩

/-- Claim C10: over a missing output file, `Load` returns an empty list and no
error, the rebuilt fingerprint index is empty, and `Exists` is `false` for
every fingerprint. -/
theorem load_missing_file (cfg : StorageConfig) (fp : String) :
    (newJSONLStorage cfg none).load = .ok [] ∧
    (newJSONLStorage cfg none).existingHashes = [] ∧
    (newJSONLStorage cfg none).existsHash fp = false :=
  ⟨rfl, rfl, rfl⟩

/-- Claim C5 counterexample: the claim says `Save`'s duplicate outcome is
reported distinctly from its success outcome.  In the code `Save` returns a
`nil` error both when it skips a duplicate and when it appends a record:
below, the duplicate save of `artB` (which writes nothing) and the fresh
save of `artC` (which appends a record) return the *same* value, so a
caller cannot distinguish them from `Save`'s result. -/
theorem save_outcome_counterexample :
    ((storeWithA.save "t" artB).2 = (storeWithA.save "t" artC).2) ∧
    (storeWithA.save "t" artB).1.records = [artA] ∧
    (storeWithA.save "t" artC).1.records = [artA, artC] := by decide

/-- Claim C5 (amended): `Save` returns a `nil` error both for a duplicate
skip (writing nothing) and for a successful append; only I/O or encoding
failures yield a non-`nil` error.  Duplicates are distinguished by the
caller: `handleArticle` calls `Exists` before `Save` and counts a duplicate
in `SkippedArticles` (leaving the store untouched) and a fresh article in
`SavedArticles`, so duplicate counts are kept separately from both
successes and failures. -/
theorem save_outcomes_amended (st : JSONLStorage) (now : String) (a : Article)
    (stats : AppStats) :
    (st.existsHash a.contentHash = true → st.save now a = (st, none)) ∧
    (st.existsHash a.contentHash = false →
       (st.save now a).2 = none ∧ (st.save now a).1.records = st.records ++ [a]) ∧
    (st.existsHash a.contentHash = true →
       handleArticle stats st now (some a)
         = ({ stats with processedURLs := stats.processedURLs + 1,
                          skippedArticles := stats.skippedArticles + 1 }, st)) ∧
    (st.existsHash a.contentHash = false → stats.dryRun = false →
       handleArticle stats st now (some a)
         = ({ stats with processedURLs := stats.processedURLs + 1,
                          savedArticles := stats.savedArticles + 1 },
            (st.save now a).1)) := by
  refine ⟨?_, ?_, ?_, ?_⟩
  · intro h
    exact save_of_exists now (by simpa [JSONLStorage.existsHash] using h)
  · intro h
    have hm : a.contentHash ∉ st.existingHashes := by
      simpa [JSONLStorage.existsHash] using h
    exact ⟨(save_of_not_exists now hm).2.2, (save_of_not_exists now hm).1⟩
  · intro h
    simp [handleArticle, h]
  · intro h hdry
    have hm : a.contentHash ∉ st.existingHashes := by
      simpa [JSONLStorage.existsHash] using h
    have hsv := save_of_not_exists now hm
    rcases hq : st.save now a with ⟨s1, e⟩
    rw [hq] at hsv
    have he : e = none := hsv.2.2
    subst he
    simp [handleArticle, h, hdry, hq]

/-- Witness for C5 (amended): a duplicate is counted as skipped with the
store untouched; a fresh article is counted as saved. -/
theorem save_outcomes_amended_witness :
    (storeWithA.save "t" artB = (storeWithA, none)) ∧
    (handleArticle ⟨0, 0, 0, 0, false⟩ storeWithA "t" (some artC)
      = (⟨1, 1, 0, 0, false⟩, (storeWithA.save "t" artC).1)) :=
  ⟨(save_outcomes_amended storeWithA "t" artB ⟨0, 0, 0, 0, false⟩).1 (by decide),
   (save_outcomes_amended storeWithA "t" artC ⟨0, 0, 0, 0, false⟩).2.2.2 (by decide) rfl⟩

/-! ## Backup-retention lemmas -/

/-- The pure effect of `cleanupOldBackups` on the backup-directory
contents. -/
def cleanupNames (maxB : Nat) (files0 : List String) : List String :=
  let files := files0.insertionSort (· ≤ ·)
  if files.length ≤ maxB then files0 else files.drop (files.length - maxB)

/-- The `n` most recent entries of `l` (its last `n` elements). -/
def keepLast (n : Nat) (l : List String) : List String :=
  l.drop (l.length - n)

theorem cleanupOldBackups_backups (st : JSONLStorage) :
    (st.cleanupOldBackups).backups
      = cleanupNames st.config.maxBackupFiles st.backups := by
  simp only [JSONLStorage.cleanupOldBackups, cleanupNames]
  split <;> rfl

theorem createBackup_backups (st : JSONLStorage) (t : String) (v : List Article)
    (h : st.fileLines = some v) :
    (st.createBackup t).backups
      = cleanupNames st.config.maxBackupFiles (st.backups ++ [backupName t]) := by
  unfold JSONLStorage.createBackup
  rw [h]
  exact cleanupOldBackups_backups _

theorem foldl_createBackup (stamps : List String) :
    ∀ (st : JSONLStorage) (v : List Article), st.fileLines = some v →
    (stamps.foldl (fun s t => s.createBackup t) st).backups
      = stamps.foldl
          (fun bs t => cleanupNames st.config.maxBackupFiles (bs ++ [backupName t]))
          st.backups := by
  induction stamps with
  | nil => intro st v h; rfl
  | cons t rest ih =>
    intro st v h
    rw [List.foldl_cons, List.foldl_cons]
    have hfl : (st.createBackup t).fileLines = some v :=
      (createBackup_fileLines st t).trans h
    have hcfg : (st.createBackup t).config = st.config := createBackup_config st t
    rw [ih (st.createBackup t) v hfl, hcfg, createBackup_backups st t v h]

theorem cleanupNames_step (maxB : Nat) (p : List String) (n : String)
    (hp : p.Pairwise (· < ·)) (hlt : ∀ b ∈ p, b < n) :
    cleanupNames maxB (keepLast maxB p ++ [n]) = keepLast maxB (p ++ [n]) := by
  have hq_sub : List.Sublist (keepLast maxB p) p := List.drop_sublist _ _
  have hq_pw : (keepLast maxB p).Pairwise (· < ·) := hp.sublist hq_sub
  have hq_lt : ∀ b ∈ keepLast maxB p, b < n := fun b hb => hlt b (hq_sub.subset hb)
  have hpw : (keepLast maxB p ++ [n]).Pairwise (· < ·) := by
    rw [List.pairwise_append]
    refine ⟨hq_pw, List.pairwise_singleton _ _, ?_⟩
    intro a ha b hb
    rw [List.mem_singleton] at hb
    subst hb
    exact hq_lt a ha
  have hsorted : List.Sorted (· ≤ ·) (keepLast maxB p ++ [n]) :=
    hpw.imp le_of_lt
  have hsort_eq : (keepLast maxB p ++ [n]).insertionSort (· ≤ ·)
      = keepLast maxB p ++ [n] := hsorted.insertionSort_eq
  by_cases hcase : p.length < maxB
  · have h0 : p.length - maxB = 0 := by omega
    have hq : keepLast maxB p = p := by simp [keepLast, h0]
    have hle : ((keepLast maxB p ++ [n]).insertionSort (· ≤ ·)).length ≤ maxB := by
      rw [hsort_eq, hq]
      simp only [List.length_append, List.length_singleton]
      omega
    simp only [cleanupNames]
    rw [if_pos hle, hq, keepLast]
    have hz : (p ++ [n]).length - maxB = 0 := by
      simp only [List.length_append, List.length_singleton]
      omega
    rw [hz, List.drop_zero]
  · have hmle : maxB ≤ p.length := by omega
    have hqlen : (keepLast maxB p).length = maxB := by
      simp only [keepLast, List.length_drop]
      omega
    have hgt : ¬ (((keepLast maxB p ++ [n]).insertionSort (· ≤ ·)).length ≤ maxB) := by
      rw [hsort_eq]
      simp only [List.length_append, List.length_singleton, hqlen]
      omega
    have hlen3 : ((keepLast maxB p ++ [n]).insertionSort (· ≤ ·)).length - maxB = 1 := by
      rw [hsort_eq]
      simp only [List.length_append, List.length_singleton, hqlen]
      omega
    have hq_eq : keepLast maxB p ++ [n] = (p ++ [n]).drop (p.length - maxB) := by
      rw [keepLast, List.drop_append_of_le_length (Nat.sub_le _ _)]
    simp only [cleanupNames]
    rw [if_neg hgt, hlen3, hsort_eq, hq_eq, List.drop_drop, keepLast]
    congr 1
    simp only [List.length_append, List.length_singleton]
    omega

theorem rotateFold_gen (maxB : Nat) : ∀ (rest p : List String),
    (p ++ rest).Pairwise (· < ·) →
    rest.foldl (fun bs n => cleanupNames maxB (bs ++ [n])) (keepLast maxB p)
      = keepLast maxB (p ++ rest) := by
  intro rest
  induction rest with
  | nil => intro p hp; simp
  | cons n rest ih =>
    intro p hp
    rw [List.foldl_cons]
    have hpp : p.Pairwise (· < ·) := (List.pairwise_append.mp hp).1
    have hlt : ∀ b ∈ p, b < n := by
      have h2 := (List.pairwise_append.mp hp).2.2
      intro b hb
      exact h2 b hb n (List.mem_cons_self _ _)
    rw [cleanupNames_step maxB p n hpp hlt]
    have hp' : ((p ++ [n]) ++ rest).Pairwise (· < ·) := by
      rw [List.append_assoc, List.singleton_append]
      exact hp
    rw [ih (p ++ [n]) hp', List.append_assoc, List.singleton_append]

theorem foldl_over_map (g : String → String)
    (f : List String → String → List String) :
    ∀ (l : List String) (b : List String),
    (l.map g).foldl f b = l.foldl (fun bs t => f bs (g t)) b := by
  intro l
  induction l with
  | nil => intro b; rfl
  | cons x xs ih => intro b; simp only [List.map_cons, List.foldl_cons, ih]

/-- The rotation scenario of the retention property: backups enabled with
retention `maxB`, an existing output file, an empty backup directory, and
one `createBackup` rotation per timestamp. -/
def rotateAll (maxB : Nat) (stamps : List String) : JSONLStorage :=
  stamps.foldl (fun st t => st.createBackup t)
    { config := ⟨true, maxB⟩, existingHashes := [], fileLines := some [],
      backups := [] }

/-- Claim C4: backup retention.  After rotations that created `n + k`
backup files (`k ≥ 1`) with lexicographically increasing timestamped
names, exactly `n` backup files remain, and they are the most recent ones
(the last `n` in name order); the older `k` are deleted. -/
theorem backup_retention (n k : Nat) (stamps : List String)
    (hsort : (stamps.map backupName).Pairwise (· < ·))
    (hlen : stamps.length = n + k) (hk : 1 ≤ k) :
    (rotateAll n stamps).backups = (stamps.map backupName).drop k ∧
    (rotateAll n stamps).backups.length = n := by
  have h1 : (rotateAll n stamps).backups
      = stamps.foldl (fun bs t => cleanupNames n (bs ++ [backupName t])) [] := by
    rw [rotateAll, foldl_createBackup stamps _ [] rfl]
  have h2 : stamps.foldl (fun bs t => cleanupNames n (bs ++ [backupName t])) []
      = keepLast n (stamps.map backupName) := by
    rw [← foldl_over_map backupName (fun bs m => cleanupNames n (bs ++ [m])) stamps []]
    have := rotateFold_gen n (stamps.map backupName) [] hsort
    simpa [keepLast] using this
  have h3 : keepLast n (stamps.map backupName) = (stamps.map backupName).drop k := by
    rw [keepLast, List.length_map, hlen]
    congr 1
    omega
  refine ⟨(h1.trans h2).trans h3, ?_⟩
  rw [(h1.trans h2).trans h3, List.length_drop, List.length_map, hlen]
  omega

/-- Witness for C4: retention 1, two rotations; only the newer backup file
remains. -/
theorem backup_retention_witness :
    ((rotateAll 1 ["20250101_000000", "20250102_000000"]).backups
        = (["20250101_000000", "20250102_000000"].map backupName).drop 1) ∧
    (rotateAll 1 ["20250101_000000", "20250102_000000"]).backups.length = 1 := by
  have pf : ((["20250101_000000", "20250102_000000"].map backupName).Pairwise
      (· < ·)) := by
    simp only [List.map_cons, List.map_nil]
    refine List.pairwise_cons.mpr ⟨?_, List.pairwise_singleton _ _⟩
    intro b hb
    rw [List.mem_singleton] at hb
    subst hb
    rw [String.lt_iff_toList_lt]
    decide
  exact backup_retention 1 1 ["20250101_000000", "20250102_000000"]
    pf rfl (by decide)

/-! ## Claim theorems: URL classifier and scope gate -/

/-- Claim C3: exclusion patterns take precedence.  Any URL matching an
exclusion pattern is never classified an article page (`IsArticlePage` is
`false`, hence `ShouldExtractContent` is `false`), even when it also
matches an article-path pattern; in particular the URL
`"/posts/photo.jpg"`, which ends in a static-asset extension, is
classified `"other"` by `GetURLType`. -/
theorem exclusion_precedence (url : String)
    (hex : excludePatterns.any (fun p => matchPat p url) = true) :
    (isArticlePage url = false ∧ shouldExtractContent url = false) ∧
    getURLType "/posts/photo.jpg" = "other" := by
  constructor
  · have h : isArticlePage url = false := by
      simp [isArticlePage, hex]
    exact ⟨h, by simp [shouldExtractContent, h]⟩
  · decide

/-- Witness for C3: `"/tags/posts/nice-post/"` matches both an exclusion
pattern (`/tags/`) and an article-path pattern (`/posts/[^/]+/$` via its
suffix), yet is not an article page. -/
theorem exclusion_precedence_witness :
    (excludePatterns.any (fun p => matchPat p "/tags/posts/nice-post/") = true) ∧
    (articlePatterns.any (fun p => matchPat p "/tags/posts/nice-post/") = true) ∧
    isArticlePage "/tags/posts/nice-post/" = false :=
  ⟨by decide, by decide,
   (exclusion_precedence "/tags/posts/nice-post/" (by decide)).1.1⟩

/-- The concrete exclusion-free configuration of the C7 counterexample:
`example.com` is the only allowed domain. -/
def cfgScope : TargetCfg := ⟨["example.com"], []⟩

/-- Claim C7 counterexample: the claim says the scope gate accepts a URL only
if the URL's *host* is in the allowed-domain set.  `IsAllowedURL` instead
tests `strings.Contains(url, domain)`: the URL below has host
`"evil.org"`, which is not allowed, yet is accepted because the allowed
domain occurs later in its path. -/
theorem scope_gate_counterexample :
    isAllowedURL cfgScope "https://evil.org/example.com/" = true ∧
    hostOf "https://evil.org/example.com/" = "evil.org" ∧
    cfgScope.allowedDomains.contains (hostOf "https://evil.org/example.com/")
      = false := by decide

/-- Claim C7 (amended): the scope gate accepts a URL exactly when no
exclusion pattern matches it *and* some allowed domain occurs as a
substring of the URL (not a parsed-host comparison).  In particular every
URL matching an exclusion pattern is rejected regardless of domain, and
every accepted URL contains an allowed domain somewhere in its text. -/
theorem scope_gate_amended (cfg : TargetCfg) (url : String) :
    (cfg.excludePatterns.any (fun p => matchesPattern url p) = true →
       isAllowedURL cfg url = false) ∧
    (isAllowedURL cfg url = true →
       cfg.allowedDomains.any (fun d => strContains url d) = true) ∧
    (cfg.excludePatterns.any (fun p => matchesPattern url p) = false →
     cfg.allowedDomains.any (fun d => strContains url d) = true →
       isAllowedURL cfg url = true) := by
  refine ⟨?_, ?_, ?_⟩
  · intro h
    simp [isAllowedURL, h]
  · intro h
    by_cases hex : cfg.excludePatterns.any (fun p => matchesPattern url p)
    · simp [isAllowedURL, hex] at h
    · simpa [isAllowedURL, hex] using h
  · intro hex hdom
    simp [isAllowedURL, hex, hdom]

/-- Witness for C7 (amended) at concrete inputs: an excluded URL is
rejected; an accepted URL contains the allowed domain. -/
theorem scope_gate_amended_witness :
    (isAllowedURL ⟨["example.com"], ["*.jpg"]⟩ "https://example.com/a.jpg" = false) ∧
    (isAllowedURL cfgScope "https://example.com/posts/a/" = true) :=
  ⟨(scope_gate_amended ⟨["example.com"], ["*.jpg"]⟩ "https://example.com/a.jpg").1
      (by decide),
   (scope_gate_amended cfgScope "https://example.com/posts/a/").2.2
      (by decide) (by decide)⟩

/-! ## Claim theorems: title extraction (C6) -/

/-- The page of the C6 counterexample: every selector yields empty text
except the `title` tag, whose text is `"|My Blog"` — the segment before
the separator is empty, the one after it is not. -/
def pageC6 : String → String :=
  fun sel => if sel = "title" then "|My Blog" else ""

/-- Claim C6 counterexample: the claim says that when every title selector
fails, the title-tag text is split on `"|"` and *the first non-empty
segment* becomes the title.  On the page below the first non-empty segment
is `"My Blog"`, but `extractTitle` returns the whole title-tag text
`"|My Blog"`: the code only inspects the segment *before* the first
separator and falls back to the full text when that segment is empty, so
the page is also still extractable rather than `NotExtractable`. -/
theorem extract_title_counterexample :
    extractTitle "h1" pageC6 = "|My Blog" ∧
    ((strSplit (cleanText (pageC6 "title")) '|').find?
        (fun s => strTrim s != "") = some "My Blog") ∧
    ("|My Blog" : String) ≠ "My Blog" := by decide

/-- Claim C6 (amended): title extraction.  The configured selectors are tried
in order and the first yielding non-empty text gives the title,
whitespace-normalized.  If all selectors yield empty text, let `pt` be the
whitespace-normalized title-tag text: if `pt` is empty the title is empty
(and `ExtractArticle` yields no article, the visited-set and URL-filter
checks permitting); otherwise the segment of `pt` before the first `"|"`,
trimmed, becomes the title if it is non-empty, and the *whole* of `pt`
becomes the title if that first segment is empty. -/
theorem extract_title_amended (titleCfg : String) (childText : String → String)
    (cfg : ScraperCfg) (hashFn : String → String) (st : Scraper) (e : Dom) :
    (∀ sel, (splitSelectors titleCfg).find? (fun s => childText s != "") = some sel →
       extractTitle titleCfg childText = cleanText (childText sel)) ∧
    ((splitSelectors titleCfg).find? (fun s => childText s != "") = none →
       ((cleanText (childText "title") = "" →
           extractTitle titleCfg childText = "") ∧
        (cleanText (childText "title") ≠ "" →
         strTrim ((strSplit (cleanText (childText "title")) '|').headD "") ≠ "" →
           extractTitle titleCfg childText
             = strTrim ((strSplit (cleanText (childText "title")) '|').headD "")) ∧
        (cleanText (childText "title") ≠ "" →
         strTrim ((strSplit (cleanText (childText "title")) '|').headD "") = "" →
           extractTitle titleCfg childText = cleanText (childText "title")))) ∧
    (st.visitedURLs.contains e.url = false →
     extractTitle cfg.titleSelectors e.childText = "" →
       (st.extractArticle cfg hashFn e).1 = none) := by
  refine ⟨?_, ?_, ?_⟩
  · intro sel hfind
    simp [extractTitle, hfind]
  · intro hfind
    have hconv : ∀ (l : List String) (d : String), l.headD d = l.head?.getD d := by
      intro l d; cases l <;> rfl
    refine ⟨?_, ?_, ?_⟩
    · intro hpt
      simp [extractTitle, hfind, hpt]
    · intro hpt hseg
      rw [hconv] at hseg
      simp [extractTitle, hfind, hpt, hseg]
    · intro hpt hseg
      rw [hconv] at hseg
      simp [extractTitle, hfind, hpt, hseg]
  · intro hvis htitle
    simp only [Scraper.extractArticle, hvis, Bool.false_eq_true, if_false]
    by_cases hse : shouldExtractContent e.url
    · simp [hse, htitle]
    · simp [hse]

/-- Witness for C6 (amended): the selector case, the empty-first-segment
fallback case, and the no-title extraction-skip case, each at concrete
inputs. -/
theorem extract_title_amended_witness :
    (extractTitle "h1" (fun sel => if sel = "h1" then " My  Post " else "")
       = cleanText " My  Post ") ∧
    (extractTitle "h1" pageC6 = cleanText (pageC6 "title")) ∧
    ((Scraper.extractArticle ⟨"h1", ".c", ""⟩ (fun s => s) ⟨[], []⟩
        ⟨"/posts/x/", fun _ => "", fun _ => "", fun s => s, fun s => s⟩).1
      = none) :=
  ⟨(extract_title_amended "h1" (fun sel => if sel = "h1" then " My  Post " else "")
      ⟨"h1", ".c", ""⟩ (fun s => s) ⟨[], []⟩
      ⟨"/posts/x/", fun _ => "", fun _ => "", fun s => s, fun s => s⟩).1
      "h1" (by decide),
   (extract_title_amended "h1" pageC6
      ⟨"h1", ".c", ""⟩ (fun s => s) ⟨[], []⟩
      ⟨"/posts/x/", fun _ => "", fun _ => "", fun s => s, fun s => s⟩).2.1
      (by decide) |>.2.2 (by decide) (by decide),
   (extract_title_amended "h1" pageC6
      ⟨"h1", ".c", ""⟩ (fun s => s) ⟨[], []⟩
      ⟨"/posts/x/", fun _ => "", fun _ => "", fun s => s, fun s => s⟩).2.2
      (by decide) (by decide)⟩

/-! ## Link-discovery lemmas (C8) -/

theorem linkStep_mem (acc : List String) (u v : String) :
    v ∈ linkStep acc u
      ↔ v ∈ acc ∨ (v = u ∧ (articleLinkCond u || paginationLinkCond u) = true) := by
  by_cases hu : u = ""
  · subst hu
    have h1 : articleLinkCond "" = false := by decide
    have h2 : paginationLinkCond "" = false := by decide
    simp [linkStep, h1, h2]
  · simp only [linkStep, if_neg hu]
    by_cases ha : articleLinkCond u <;> by_cases hp : paginationLinkCond u <;>
      by_cases hm : u ∈ acc <;>
        simp [ha, hp, hm, List.mem_append] <;> aesop

theorem linkStep_nodup (acc : List String) (u : String) (h : acc.Nodup) :
    (linkStep acc u).Nodup := by
  by_cases hu : u = ""
  · simpa [linkStep, hu] using h
  · simp only [linkStep, if_neg hu]
    by_cases ha : articleLinkCond u <;> by_cases hp : paginationLinkCond u <;>
      by_cases hm : u ∈ acc <;>
        simp [ha, hp, hm, List.nodup_append, h, List.mem_append]

theorem foldl_linkStep_mem (us : List String) : ∀ (acc : List String) (v : String),
    v ∈ us.foldl linkStep acc
      ↔ v ∈ acc ∨ (v ∈ us ∧ (articleLinkCond v || paginationLinkCond v) = true) := by
  induction us with
  | nil => intro acc v; simp
  | cons u rest ih =>
    intro acc v
    rw [List.foldl_cons, ih, linkStep_mem]
    simp only [List.mem_cons]
    constructor
    · rintro ((hv | ⟨rfl, hcond⟩) | ⟨hr, hcond⟩)
      · exact Or.inl hv
      · exact Or.inr ⟨Or.inl rfl, hcond⟩
      · exact Or.inr ⟨Or.inr hr, hcond⟩
    · rintro (hv | ⟨rfl | hr, hcond⟩)
      · exact Or.inl (Or.inl hv)
      · exact Or.inl (Or.inr ⟨rfl, hcond⟩)
      · exact Or.inr ⟨hr, hcond⟩

theorem foldl_linkStep_nodup (us : List String) :
    ∀ acc : List String, acc.Nodup → (us.foldl linkStep acc).Nodup := by
  induction us with
  | nil => intro acc h; exact h
  | cons u rest ih =>
    intro acc h
    rw [List.foldl_cons]
    exact ih _ (linkStep_nodup acc u h)

/-- Claim C8: link discovery.  The returned list has no duplicates, and an
absolute URL is in it exactly when it was among the page's resolved link
URLs and satisfies rule (a) — contains the article-path marker `/posts/`,
ends with `/`, does not end with the bare listing root `/posts/`, and
contains no pagination marker `/page/` — or rule (b) — contains a
pagination marker (`/page/`, or `/posts/page/` which implies it). -/
theorem extract_links_spec (resolvedURLs : List String) (u : String) :
    (extractLinks resolvedURLs).Nodup ∧
    (u ∈ extractLinks resolvedURLs
      ↔ u ∈ resolvedURLs ∧
          (articleLinkCond u = true ∨ paginationLinkCond u = true)) := by
  constructor
  · exact foldl_linkStep_nodup resolvedURLs [] List.nodup_nil
  · rw [extractLinks, foldl_linkStep_mem]
    simp [Bool.or_eq_true]

/-! ## Visited-set lemmas (C9) -/

theorem extractArticle_of_visited (cfg : ScraperCfg) (hashFn : String → String)
    (st : Scraper) (e : Dom) (h : st.visitedURLs.contains e.url = true) :
    st.extractArticle cfg hashFn e = (none, st) := by
  simp only [Scraper.extractArticle]
  rw [if_pos h]

theorem extractArticle_visitedURLs (cfg : ScraperCfg) (hashFn : String → String)
    (st : Scraper) (e : Dom) :
    (st.extractArticle cfg hashFn e).2.visitedURLs
      = if e.url ∈ st.visitedURLs then st.visitedURLs
        else st.visitedURLs ++ [e.url] := by
  by_cases h : e.url ∈ st.visitedURLs <;>
    simp [Scraper.extractArticle, h] <;>
    (repeat' split) <;> simp

theorem runScraper_visited_mono (cfg : ScraperCfg) (hashFn : String → String)
    (pages : List Dom) : ∀ (st : Scraper) (v : String), v ∈ st.visitedURLs →
    v ∈ (runScraper cfg hashFn st pages).1.visitedURLs := by
  induction pages with
  | nil => intro st v hv; exact hv
  | cons e rest ih =>
    intro st v hv
    simp only [runScraper]
    apply ih
    rw [extractArticle_visitedURLs]
    split <;> simp [hv]

theorem runScraper_count_zero (cfg : ScraperCfg) (hashFn : String → String)
    (pages : List Dom) : ∀ (st : Scraper) (u : String), u ∈ st.visitedURLs →
    (runScraper cfg hashFn st pages).2.countP
        (fun r => r.1 == u && r.2.isSome) = 0 := by
  induction pages with
  | nil => intro st u hu; rfl
  | cons e rest ih =>
    intro st u hu
    simp only [runScraper]
    rw [List.countP_cons]
    by_cases heq : e.url = u
    · subst heq
      have hc : st.visitedURLs.contains e.url = true := by simpa using hu
      rw [extractArticle_of_visited cfg hashFn st e hc]
      simpa using ih st e.url hu
    · have hmono : u ∈ (st.extractArticle cfg hashFn e).2.visitedURLs := by
        rw [extractArticle_visitedURLs]
        split <;> simp [hu]
      have h0 := ih (st.extractArticle cfg hashFn e).2 u hmono
      have hne : (e.url == u) = false := by simpa using heq
      simp [h0, hne]

theorem runScraper_count_le_one (cfg : ScraperCfg) (hashFn : String → String)
    (pages : List Dom) : ∀ (st : Scraper) (u : String),
    (runScraper cfg hashFn st pages).2.countP
        (fun r => r.1 == u && r.2.isSome) ≤ 1 := by
  induction pages with
  | nil => intro st u; simp [runScraper]
  | cons e rest ih =>
    intro st u
    simp only [runScraper]
    rw [List.countP_cons]
    by_cases hsome : ((st.extractArticle cfg hashFn e).1.isSome = true) ∧ e.url = u
    · obtain ⟨h1, h2⟩ := hsome
      subst h2
      have hv : e.url ∈ (st.extractArticle cfg hashFn e).2.visitedURLs := by
        rw [extractArticle_visitedURLs]
        split
        · next hc => simpa using hc
        · simp
      have h0 := runScraper_count_zero cfg hashFn rest
        (st.extractArticle cfg hashFn e).2 e.url hv
      simp [h0, h1]
    · have hpred : ((e.url == u) && (st.extractArticle cfg hashFn e).1.isSome)
          = false := by
        rcases not_and_or.mp hsome with h | h
        · have : (st.extractArticle cfg hashFn e).1.isSome = false := by
            simpa using h
          simp [this]
        · have : (e.url == u) = false := by simpa using h
          simp [this]
      simp only [hpred, if_false, Bool.false_eq_true, Nat.add_zero]
      exact ih _ u

/-- Claim C9: visited-set invariant.  (i) A call on an already-visited URL
returns `nil` with the scraper state — visited set *and* articles slice —
completely unchanged.  (ii) Across any sequence of `ExtractArticle` calls
the visited set only grows: a URL once recorded is still recorded at the
end.  (iii) For each URL, at most one call of the sequence returns a
non-`nil` article. -/
theorem visited_set_invariant (cfg : ScraperCfg) (hashFn : String → String)
    (st : Scraper) (e : Dom) (pages : List Dom) (u v : String)
    (hvisited : st.visitedURLs.contains e.url = true) :
    (st.extractArticle cfg hashFn e = (none, st)) ∧
    (v ∈ st.visitedURLs → v ∈ (runScraper cfg hashFn st pages).1.visitedURLs) ∧
    ((runScraper cfg hashFn st pages).2.countP
        (fun r => r.1 == u && r.2.isSome) ≤ 1) :=
  ⟨extractArticle_of_visited cfg hashFn st e hvisited,
   fun hv => runScraper_visited_mono cfg hashFn pages st v hv,
   runScraper_count_le_one cfg hashFn pages st u⟩

/-- The concrete page of the C9 witness: an article-shaped URL whose `h1`
and `.content` selectors match. -/
def domW : Dom :=
  ⟨"/posts/hello/",
   fun sel => if sel = "h1" then "Hello" else "",
   fun sel => if sel = ".content" then "<p>hi</p>" else "",
   fun s => s, fun _ => "hi"⟩

/-- The concrete selector configuration of the C9 witness. -/
def scraperCfgW : ScraperCfg := ⟨"h1", ".content", ""⟩

/-- Witness for C9: the page's URL is already visited, so the call is a
no-op; the visited URL survives a two-page run; and the run produces at
most one article for the URL. -/
theorem visited_set_invariant_witness :
    (Scraper.extractArticle scraperCfgW (fun s => s)
        ⟨["/posts/hello/"], []⟩ domW = (none, ⟨["/posts/hello/"], []⟩)) ∧
    ("/posts/hello/" ∈ (runScraper scraperCfgW (fun s => s)
        ⟨["/posts/hello/"], []⟩ [domW, domW]).1.visitedURLs) ∧
    ((runScraper scraperCfgW (fun s => s)
        ⟨["/posts/hello/"], []⟩ [domW, domW]).2.countP
        (fun r => r.1 == "/posts/hello/" && r.2.isSome) ≤ 1) :=
  ⟨(visited_set_invariant scraperCfgW (fun s => s) ⟨["/posts/hello/"], []⟩ domW
      [domW, domW] "/posts/hello/" "/posts/hello/" (by decide)).1,
   (visited_set_invariant scraperCfgW (fun s => s) ⟨["/posts/hello/"], []⟩ domW
      [domW, domW] "/posts/hello/" "/posts/hello/" (by decide)).2.1 (by decide),
   (visited_set_invariant scraperCfgW (fun s => s) ⟨["/posts/hello/"], []⟩ domW
      [domW, domW] "/posts/hello/" "/posts/hello/" (by decide)).2.2⟩

/-- Witness for C8 at concrete inputs: the article URL is accepted once
despite appearing twice, the bare listing root is rejected, the pagination
URL is accepted, and the result list has no duplicates. -/
theorem extract_links_spec_witness :
    ("https://s/posts/a/" ∈ extractLinks
        ["https://s/posts/a/", "https://s/posts/", "https://s/page/2/",
         "https://s/posts/a/"]) ∧
    (("https://s/posts/" ∈ extractLinks
        ["https://s/posts/a/", "https://s/posts/", "https://s/page/2/",
         "https://s/posts/a/"]) → False) ∧
    (extractLinks
        ["https://s/posts/a/", "https://s/posts/", "https://s/page/2/",
         "https://s/posts/a/"]).Nodup :=
  ⟨(extract_links_spec
      ["https://s/posts/a/", "https://s/posts/", "https://s/page/2/",
       "https://s/posts/a/"] "https://s/posts/a/").2.mpr
      ⟨by decide, Or.inl (by decide)⟩,
   fun hmem => by
     have h := (extract_links_spec
        ["https://s/posts/a/", "https://s/posts/", "https://s/page/2/",
         "https://s/posts/a/"] "https://s/posts/").2.mp hmem
     rcases h.2 with hc | hc <;> revert hc <;> decide,
   (extract_links_spec
      ["https://s/posts/a/", "https://s/posts/", "https://s/page/2/",
       "https://s/posts/a/"] "https://s/posts/a/").1⟩

/-- Witness for C10 at a concrete configuration and fingerprint. -/
theorem load_missing_file_witness :
    (newJSONLStorage ⟨false, 0⟩ none).load = .ok [] ∧
    (newJSONLStorage ⟨false, 0⟩ none).existsHash "h1" = false :=
  ⟨(load_missing_file ⟨false, 0⟩ "h1").1, (load_missing_file ⟨false, 0⟩ "h1").2.2⟩

end Colly
